import Mathlib

/-!
Verification development for the `iyes_perf_ui` crate.

The Rust source stores `f32`/`f64` quantities.  We embed machine floats
shallowly: a non-NaN float is a rational number or one of the two
infinities (type `F`), and a possibly-NaN float is `Option F` (type
`Flt`, with `none` playing the role of NaN).  Rounding of finite
arithmetic is not modelled (rationals are exact); none of the verified
claims depends on rounding of `f32`/`f64` arithmetic, only on
comparisons, on NaN/infinity propagation and on decimal rendering,
which are modelled faithfully.  Signed zero is not modelled; the code
under verification never distinguishes `-0.0` from `0.0`.
-/

/-- A non-NaN `f32`/`f64` value: either a finite rational or one of the
two IEEE infinities. -/
inductive F where
  | negInf : F
  | fin : ℚ → F
  | posInf : F
deriving DecidableEq, Repr

namespace F

/-- Order-embedding of `F` into `WithBot (WithTop ℚ)`, used to inherit
the linear order (the IEEE total order on non-NaN values). -/
def toW : F → WithBot (WithTop ℚ)
  | .negInf => ⊥
  | .fin q => ((q : WithTop ℚ) : WithBot (WithTop ℚ))
  | .posInf => ((⊤ : WithTop ℚ) : WithBot (WithTop ℚ))

theorem toW_injective : Function.Injective toW := by
  intro a b h
  cases a <;> cases b <;> simp_all [toW]

instance : LinearOrder F := LinearOrder.lift' toW toW_injective

theorem le_def {a b : F} : a ≤ b ↔ a.toW ≤ b.toW := Iff.rfl

theorem negInf_le (x : F) : F.negInf ≤ x := by
  rw [le_def]; exact bot_le

theorem le_posInf (x : F) : x ≤ F.posInf := by
  rw [le_def]
  cases x <;> simp [toW]

theorem fin_le_fin {a b : ℚ} : F.fin a ≤ F.fin b ↔ a ≤ b := by
  rw [le_def]
  simp [toW]

theorem fin_lt_fin {a b : ℚ} : F.fin a < F.fin b ↔ a < b := by
  constructor
  · intro h
    have := not_le.mpr h
    rw [fin_le_fin] at this
    exact not_le.mp this
  · intro h
    refine lt_of_le_of_ne (fin_le_fin.mpr h.le) ?_
    intro hc
    cases hc
    exact lt_irrefl a h

/-- IEEE negation of a non-NaN float. -/
def neg : F → F
  | .negInf => .posInf
  | .fin q => .fin (-q)
  | .posInf => .negInf

end F

/-- A machine float: `none` is NaN, `some x` a non-NaN value. -/
abbrev Flt := Option F

namespace Flt

/-- IEEE addition (`a + b`): NaN propagates, `∞ + (-∞)` is NaN. -/
def add : Flt → Flt → Flt
  | some (.fin a), some (.fin b) => some (.fin (a + b))
  | some (.fin _), some .posInf => some .posInf
  | some (.fin _), some .negInf => some .negInf
  | some .posInf, some (.fin _) => some .posInf
  | some .negInf, some (.fin _) => some .negInf
  | some .posInf, some .posInf => some .posInf
  | some .negInf, some .negInf => some .negInf
  | _, _ => none

/-- IEEE subtraction, `a - b = a + (-b)`. -/
def sub (a b : Flt) : Flt := add a (b.map F.neg)

/-- IEEE multiplication: NaN propagates, `0 * ∞` is NaN, infinities
multiply by sign. -/
def mul : Flt → Flt → Flt
  | some (.fin a), some (.fin b) => some (.fin (a * b))
  | some (.fin a), some .posInf =>
    if a = 0 then none else if 0 < a then some .posInf else some .negInf
  | some (.fin a), some .negInf =>
    if a = 0 then none else if 0 < a then some .negInf else some .posInf
  | some .posInf, some (.fin b) =>
    if b = 0 then none else if 0 < b then some .posInf else some .negInf
  | some .negInf, some (.fin b) =>
    if b = 0 then none else if 0 < b then some .negInf else some .posInf
  | some .posInf, some .posInf => some .posInf
  | some .posInf, some .negInf => some .negInf
  | some .negInf, some .posInf => some .negInf
  | some .negInf, some .negInf => some .posInf
  | _, _ => none

/-- IEEE division: NaN propagates, `∞/∞` and `0/0` are NaN, finite
over infinity is `0`, division by (unsigned) zero follows the `+0`
convention (signed zero is not modelled). -/
def div : Flt → Flt → Flt
  | some (.fin a), some (.fin b) =>
    if b = 0 then (if a = 0 then none else if 0 < a then some .posInf else some .negInf)
    else some (.fin (a / b))
  | some (.fin _), some .posInf => some (.fin 0)
  | some (.fin _), some .negInf => some (.fin 0)
  | some .posInf, some (.fin b) => if 0 ≤ b then some .posInf else some .negInf
  | some .negInf, some (.fin b) => if 0 ≤ b then some .negInf else some .posInf
  | _, _ => none

/-- Rust `f64::min`: if one operand is NaN the other is returned. -/
def rmin : Flt → Flt → Flt
  | none, b => b
  | a, none => a
  | some a, some b => some (min a b)

/-- Rust `f64::max`: if one operand is NaN the other is returned. -/
def rmax : Flt → Flt → Flt
  | none, b => b
  | a, none => a
  | some a, some b => some (max a b)

/-- Rust `f64::clamp(0.0, 1.0)`: NaN stays NaN, otherwise clamps into
`[0, 1]`. -/
def clamp01 : Flt → Flt
  | none => none
  | some x => some (max (.fin 0) (min x (.fin 1)))

/-- IEEE `≤` seen as a proposition: false whenever an operand is NaN. -/
def fle : Flt → Flt → Prop
  | some a, some b => a ≤ b
  | _, _ => False

instance : DecidableRel fle := fun a b => by
  cases a <;> cases b <;> simp only [fle] <;> infer_instance

end Flt

/-- A color.  The crate stores `bevy` `Oklaba` values converted from
`Color`; the (external, bijective up to rounding) color-space
conversions are modelled as the identity, so a single color type with
four `f32` components suffices. -/
structure Color where
  c1 : Flt
  c2 : Flt
  c3 : Flt
  c4 : Flt
deriving DecidableEq, Repr

namespace Color

/-- `Color::srgb(r, g, b)` (alpha 1), conversion to `Oklaba` modelled
as the identity. -/
def srgb (r g b : ℚ) : Color :=
  ⟨some (.fin r), some (.fin g), some (.fin b), some (.fin 1)⟩

/-- `Color::NONE` (fully transparent black). -/
def trNone : Color :=
  ⟨some (.fin 0), some (.fin 0), some (.fin 0), some (.fin 0)⟩

/-- `bevy` `Mix for Oklaba`: componentwise
`self * (1 - factor) + other * factor` (external library code,
modelled with IEEE float semantics; the factor may be NaN or
infinite). -/
def mix (a b : Color) (t : Flt) : Color :=
  let n := Flt.sub (some (.fin 1)) t
  ⟨Flt.add (Flt.mul a.c1 n) (Flt.mul b.c1 t),
   Flt.add (Flt.mul a.c2 n) (Flt.mul b.c2 t),
   Flt.add (Flt.mul a.c3 n) (Flt.mul b.c3 t),
   Flt.add (Flt.mul a.c4 n) (Flt.mul b.c4 t)⟩

end Color

/-!
## `ColorGradient` (`src/utils.rs`)

Rust stores `stops: Vec<(FloatOrd, Oklaba)>`, kept sorted by value and
NaN-free by all mutating entry points (`add_stop` rejects NaN); stop
values are therefore modelled with the non-NaN type `F`.
-/

/-- `ColorGradient` from `src/utils.rs`. -/
structure ColorGradient where
  stops : List (F × Color)
deriving DecidableEq, Repr

/-- `Vec::insert(i, a)`: insert `a` so that it ends up at index `i`
(Rust panics for `i > len`; such calls do not occur here, the model
appends instead). -/
def listInsertAt : ℕ → α → List α → List α
  | 0, a, l => a :: l
  | _ + 1, a, [] => [a]
  | n + 1, a, x :: xs => x :: listInsertAt n a xs

/-- In-place update of the element at index `i` (Rust
`self.stops[i].1 = ...`); out-of-range indices leave the list
unchanged (Rust would panic; such calls do not occur here). -/
def listModifyAt : ℕ → (α → α) → List α → List α
  | _, _, [] => []
  | 0, f, x :: xs => f x :: xs
  | n + 1, f, x :: xs => x :: listModifyAt n f xs

/-- Models `slice::binary_search_by_key` through its documented
contract: on a slice sorted by the key, it returns `Except.ok i` for
some index `i` whose key matches, and otherwise `Except.error i` where
`i` is the insertion point keeping the slice sorted.  Realised as an
ordered linear search, which satisfies exactly that contract on sorted
input — and the crate only ever searches its sorted `stops` vector. -/
def binarySearchByKey (v : F) : List F → Except ℕ ℕ
  | [] => .error 0
  | x :: xs =>
    if x = v then .ok 0
    else if x < v then
      match binarySearchByKey v xs with
      | .ok i => .ok (i + 1)
      | .error i => .error (i + 1)
    else .error 0

namespace ColorGradient

/-- `ColorGradient::new()`. -/
def new : ColorGradient := ⟨[]⟩

/-- `ColorGradient::single(color)`: one stop at `f32::NEG_INFINITY`. -/
def single (color : Color) : ColorGradient :=
  ⟨[(F.negInf, color)]⟩

/-- `ColorGradient::new_preset_ryg(low, mid, high)`.  The three inputs
are raw `f32` (possibly NaN, hence `Flt`); NaN or descending inputs
are rejected. -/
def new_preset_ryg (low mid high : Flt) : Except Unit ColorGradient :=
  match low, mid, high with
  | some l, some m, some h =>
    if m < l ∨ h < m then .error ()
    else .ok ⟨[(l, Color.srgb 1 0 0), (m, Color.srgb 1 1 0), (h, Color.srgb 0 1 0)]⟩
  | _, _, _ => .error ()

/-- `ColorGradient::new_preset_gyr(low, mid, high)`. -/
def new_preset_gyr (low mid high : Flt) : Except Unit ColorGradient :=
  match low, mid, high with
  | some l, some m, some h =>
    if m < l ∨ h < m then .error ()
    else .ok ⟨[(l, Color.srgb 0 1 0), (m, Color.srgb 1 1 0), (h, Color.srgb 1 0 0)]⟩
  | _, _, _ => .error ()

/-- List-level body of `ColorGradient::add_stop` for a non-NaN value:
binary-search the keys, replace the color on a hit, insert a new stop
on a miss. -/
def addStopList (l : List (F × Color)) (v : F) (color : Color) : List (F × Color) :=
  match binarySearchByKey v (l.map Prod.fst) with
  | .ok i => listModifyAt i (fun s => (s.1, color)) l
  | .error i => listInsertAt i (v, color) l

/-- `ColorGradient::add_stop(value, color)`: NaN values are dropped,
otherwise replace-or-insert keeping the vector sorted. -/
def add_stop (g : ColorGradient) (value : Flt) (color : Color) : ColorGradient :=
  match value with
  | none => g
  | some v => ⟨addStopList g.stops v color⟩

/-- `ColorGradient::min_stop()`. -/
def min_stop (g : ColorGradient) : Option (F × Color) :=
  g.stops.head?

/-- `ColorGradient::max_stop()`. -/
def max_stop (g : ColorGradient) : Option (F × Color) :=
  g.stops.getLast?

/-- `ColorGradient::get_color_for_value(value)`: NaN and the empty
gradient give `None`; values at or beyond the extreme stops saturate;
an exact hit returns the stop's color; otherwise the two neighbouring
stops are mixed at the value's fractional position between them.  (In
the interpolation branch Rust indexes `stops[i-1]` / `stops[i]`, which
would panic out of range; the model returns `none` there, a case that
is unreachable for sorted stops.) -/
def get_color_for_value (g : ColorGradient) (value : Flt) : Option Color :=
  match value with
  | none => none
  | some v =>
    match g.stops.head?, g.stops.getLast? with
    | some first, some last =>
      if last.1 ≤ v then some last.2
      else if v ≤ first.1 then some first.2
      else
        match binarySearchByKey v (g.stops.map Prod.fst) with
        | .ok i => (g.stops.get? i).map Prod.snd
        | .error i =>
          match g.stops.get? (i - 1), g.stops.get? i with
          | some lo, some hi =>
            some (Color.mix lo.2 hi.2
              (Flt.div (Flt.sub (some v) (some lo.1)) (Flt.sub (some hi.1) (some lo.1))))
          | _, _ => none
    | _, _ => none

end ColorGradient

/-!
## Bar widget (`src/widgets/bar.rs`)
-/

/-- `PerfUiWidgetBar::get_range`, abstracted over the widget's data:
`h_min`/`h_max` stand for `self.entry.min_value_hint()` /
`max_value_hint()` after the `NumCast` conversion to `f64` (absent
hint or failed cast is `none`; a present hint is a float that may be
NaN). -/
def get_range (bar_color : ColorGradient) (h_min h_max : Option Flt) : Option (Flt × Flt) :=
  let g_min : Option Flt := (bar_color.min_stop).map (fun s => (some s.1 : Flt))
  let g_max : Option Flt := (bar_color.max_stop).map (fun s => (some s.1 : Flt))
  if g_min = g_max then
    match h_min, h_max with
    | some a, some b => some (a, b)
    | _, _ => none
  else
    match
      (match g_min, h_min with
       | some gm, some hm => some (Flt.rmin gm hm)
       | some gm, none => some gm
       | none, some hm => some hm
       | none, none => none),
      (match g_max, h_max with
       | some gm, some hm => some (Flt.rmax gm hm)
       | some gm, none => some gm
       | none, some hm => some hm
       | none, none => none) with
    | some v_min, some v_max => some (v_min, v_max)
    | _, _ => none

/-!
## Formatting helpers (`src/utils.rs`)

Rust's `format!` machinery is external; decimal rendering of numbers,
zero-padding (`{:02}`), space-padding (`{:>w$}`, `{:8}`) and fill
(`{:9<prec$}`) are modelled directly on character lists.  Rust renders
a float at fixed precision by rounding the exact value half-to-even.
-/

/-- Base-10 digits of `n`, least significant first (`[]` for `0`);
first argument is structural fuel, `natDigits` supplies `n` itself. -/
def natDigitsAux : ℕ → ℕ → List ℕ
  | 0, _ => []
  | _ + 1, 0 => []
  | fuel + 1, n + 1 => ((n + 1) % 10) :: natDigitsAux fuel ((n + 1) / 10)

/-- Base-10 digits, least significant first. -/
def natDigits (n : ℕ) : List ℕ := natDigitsAux n n

/-- Decimal rendering of a natural number. -/
def natToStr (n : ℕ) : String :=
  if n = 0 then "0"
  else String.mk ((natDigits n).reverse.map (fun d => Char.ofNat (48 + d)))

/-- Zero-pad a natural number to width `w` (Rust `{:0w$}`). -/
def zpad (w : ℕ) (n : ℕ) : String :=
  String.mk (List.replicate (w - (natToStr n).length) '0') ++ natToStr n

/-- Right-align a string in `w` columns with spaces (Rust `{:w$}` on
numbers, `{:>w$}` on strings). -/
def spad (w : ℕ) (s : String) : String :=
  String.mk (List.replicate (w - s.length) ' ') ++ s

/-- Round half-to-even to an integer (how Rust renders the exact value
of a float at fixed precision). -/
def rne (y : ℚ) : ℤ :=
  if y - (⌊y⌋ : ℚ) < 1 / 2 then ⌊y⌋
  else if 1 / 2 < y - (⌊y⌋ : ℚ) then ⌊y⌋ + 1
  else if ⌊y⌋ % 2 = 0 then ⌊y⌋ else ⌊y⌋ + 1

/-- Fixed-precision decimal rendering of a finite float
(`format!("{number:.prec$}")`). -/
def fmtFixed (prec : ℕ) (x : ℚ) : String :=
  (if x < 0 then "-" else "")
    ++ natToStr ((rne (|x| * 10 ^ prec)).toNat / 10 ^ prec)
    ++ (if 0 < prec then "." ++ zpad prec ((rne (|x| * 10 ^ prec)).toNat % 10 ^ prec) else "")

/-- `format_pretty_float(digits, precision, value)` from
`src/utils.rs` (the input float is taken finite; `digits` and
`precision` are `u8`). -/
def format_pretty_float (digits precision : ℕ) (value : ℚ) : String :=
  let digits := max digits 1
  let maxv : ℚ := 10 ^ digits
  let value := if maxv ≤ value then maxv - 1 / 10 ^ precision else value
  fmtFixed precision value

/-- `format_pretty_time_hms(precision, h, m, s, nanos)` from
`src/utils.rs`. -/
def format_pretty_time_hms (precision h m s nanos : ℕ) : String :=
  let hrs := h % 100
  let mins := m % 60
  let secs := s % 60
  let frac := nanos / 10 ^ (9 - min precision 9)
  if 0 < precision then
    if 0 < hrs then
      spad 2 (natToStr hrs) ++ ":" ++ zpad 2 mins ++ ":" ++ zpad 2 secs
        ++ "." ++ zpad precision frac
    else if 0 < mins then
      spad 5 (natToStr mins) ++ ":" ++ zpad 2 secs ++ "." ++ zpad precision frac
    else
      spad 8 (natToStr secs) ++ "." ++ zpad precision frac
  else
    if 0 < hrs then
      spad 2 (natToStr hrs) ++ ":" ++ zpad 2 mins ++ ":" ++ zpad 2 secs
    else if 0 < mins then
      spad 5 (natToStr mins) ++ ":" ++ zpad 2 secs
    else
      spad 8 (natToStr secs)

/-- `format_pretty_time(precision, value)` from `src/utils.rs`; a
`Duration` is its whole-second count `secs` plus `nanos < 10^9`
subsecond nanoseconds. -/
def format_pretty_time (precision : ℕ) (secs : ℕ) (nanos : ℕ) : String :=
  let maxs := 99 * 3600 + 59 * 60 + 59
  if maxs < secs then
    if 0 < precision then "99:59:59." ++ String.mk (List.replicate precision '9')
    else "99:59:59"
  else
    format_pretty_time_hms precision (secs / 3600) (secs / 60) secs nanos

/-!
## Per-tick entry updates (`src/lib.rs` and `src/widgets/bar.rs`)

The Bevy ECS plumbing (queries, components) is external; what the
systems do each tick with one entry is a pure function from the
fetched value (`update_value` result, supplied as this tick's input)
and the previous presentation state to the new presentation state.
-/

/-- Rust `str::trim` (external): strip leading and trailing
whitespace. -/
def strTrim (s : String) : String :=
  String.mk (((s.data.dropWhile Char.isWhitespace).reverse.dropWhile Char.isWhitespace).reverse)

/-- The fields of `PerfUiRoot` the update systems read. -/
structure PerfUiRoot where
  text_err : String
  err_color : Color
  default_value_color : Color
  /-- Font handles are kept abstract; two distinct numbers stand for
  `root.font_value` and `root.font_highlight`. -/
  font_value : ℕ
  font_highlight : ℕ
  inner_background_color : Color
  inner_background_color_highlight : Color
deriving DecidableEq, Repr

/-- The trait methods of a `PerfUiEntry` (+ `PerfUiEntryDisplayRange`)
implementation used by the update systems.  `min_value_hint` /
`max_value_hint` are given after the `NumCast` conversion to `f64`,
and `to_f64` is `<f64 as NumCast>::from` on the entry's value type. -/
structure EntryImpl (V : Type) where
  format_value : V → String
  value_color : V → Option Color
  value_highlight : V → Bool
  width_hint : ℕ
  min_value_hint : Option Flt
  max_value_hint : Option Flt
  to_f64 : V → Option Flt

/-- Presentation state of one text-mode entry: its text section and
the entry row's background color. -/
structure EntryState where
  text_value : String
  text_color : Color
  text_font : ℕ
  bg : Color
deriving DecidableEq, Repr

/-- One tick of `update_perf_ui_entry` (`src/lib.rs`) for one entry,
given this tick's `update_value` result. -/
def update_perf_ui_entry (root : PerfUiRoot) (e : EntryImpl V)
    (fetched : Option V) (_st : EntryState) : EntryState :=
  match fetched with
  | some v =>
    let color := (e.value_color v).getD root.default_value_color
    let s := e.format_value v
    let hl := e.value_highlight v
    { text_value := if s.length < e.width_hint then spad e.width_hint s else s
      text_color := color
      text_font := if hl then root.font_highlight else root.font_value
      bg := if hl then root.inner_background_color_highlight
            else root.inner_background_color }
  | none =>
    let s := root.text_err
    { text_value := if s.length < e.width_hint then spad e.width_hint s else s
      text_color := root.err_color
      text_font := root.font_value
      bg := root.inner_background_color }

/-- Run `update_perf_ui_entry` over a sequence of ticks (one fetched
value per tick). -/
def runEntryTicks (root : PerfUiRoot) (e : EntryImpl V)
    (ticks : List (Option V)) (st : EntryState) : EntryState :=
  ticks.foldl (fun s f => update_perf_ui_entry root e f s) st

/-- `BarFillDirection` from `src/widgets/bar.rs`. -/
inductive BarFillDirection where
  | left
  | center
  | right
deriving DecidableEq, Repr

/-- The configuration fields of `PerfUiWidgetBar` its `update` reads
(`has_text` is `text_position != BarTextPosition::NoText`, i.e. the
text child entity exists). -/
structure PerfUiWidgetBar (V : Type) where
  has_text : Bool
  text_color_override : Option Color
  fill_direction : BarFillDirection
  bar_color : ColorGradient
  entry : EntryImpl V

/-- Presentation state of one bar widget: widget background, inner
bar fill color and `left`/`right` percentages, and the text node. -/
structure BarState where
  widget_bg : Color
  fill_color : Color
  bar_left : Flt
  bar_right : Flt
  text_value : String
  text_color : Color
  text_font : ℕ
deriving DecidableEq, Repr

/-- One tick of `PerfUiWidgetBar::update` (`src/widgets/bar.rs`),
given this tick's `update_value` result. -/
def PerfUiWidgetBar.update (root : PerfUiRoot) (w : PerfUiWidgetBar V)
    (fetched : Option V) (st : BarState) : BarState :=
  let entry_highlight := (fetched.map w.entry.value_highlight).getD false
  let widget_bg :=
    if entry_highlight then root.inner_background_color_highlight
    else root.inner_background_color
  let valueF : Option Flt := fetched.bind w.entry.to_f64
  let fill_color :=
    match valueF with
    | some v => (w.bar_color.get_color_for_value v).getD Color.trNone
    | none => st.fill_color
  let bar :=
    match valueF, get_range w.bar_color w.entry.min_value_hint w.entry.max_value_hint with
    | some v, some (v_min, v_max) =>
      let pct := Flt.mul (Flt.clamp01 (Flt.div (Flt.sub v v_min) (Flt.sub v_max v_min)))
        (some (.fin 100))
      match w.fill_direction with
      | .left => ((some (.fin 0) : Flt), Flt.sub (some (.fin 100)) pct)
      | .right => (Flt.sub (some (.fin 100)) pct, (some (.fin 0) : Flt))
      | .center =>
        (Flt.div (Flt.sub (some (.fin 100)) pct) (some (.fin 2)),
         Flt.div (Flt.sub (some (.fin 100)) pct) (some (.fin 2)))
    | _, _ => ((some (.fin 0) : Flt), (some (.fin 100) : Flt))
  let txt :=
    if w.has_text then
      match fetched with
      | some v =>
        (strTrim (w.entry.format_value v),
         if w.text_color_override.isNone then (w.entry.value_color v).getD root.default_value_color
         else st.text_color,
         if entry_highlight then root.font_highlight else root.font_value)
      | none =>
        (strTrim root.text_err,
         if w.text_color_override.isNone then root.err_color else st.text_color,
         root.font_value)
    else (st.text_value, st.text_color, st.text_font)
  { widget_bg := widget_bg
    fill_color := fill_color
    bar_left := bar.1
    bar_right := bar.2
    text_value := txt.1
    text_color := txt.2.1
    text_font := txt.2.2 }

/-- Run `PerfUiWidgetBar::update` over a sequence of ticks. -/
def runBarTicks (root : PerfUiRoot) (w : PerfUiWidgetBar V)
    (ticks : List (Option V)) (st : BarState) : BarState :=
  ticks.foldl (fun s f => PerfUiWidgetBar.update root w f s) st

/-- The presentation state `update_perf_ui_entry` writes on a tick
whose fetch returned `None` (the `else` branch in `src/lib.rs`):
padded placeholder text, error color, normal font, normal
background. -/
def entryErrState (root : PerfUiRoot) (e : EntryImpl V) : EntryState :=
  { text_value :=
      if root.text_err.length < e.width_hint then spad e.width_hint root.text_err
      else root.text_err
    text_color := root.err_color
    text_font := root.font_value
    bg := root.inner_background_color }

/-- The state `PerfUiWidgetBar::update` writes on a tick whose fetch
returned `None` (the `None` arms in `src/widgets/bar.rs`): normal
background, empty bar, trimmed placeholder text, error color unless a
text color override is configured, normal font; the fill color and,
without a text node, the text fields are left as they were. -/
def barErrTick (root : PerfUiRoot) (w : PerfUiWidgetBar V) (st : BarState) : BarState :=
  { widget_bg := root.inner_background_color
    fill_color := st.fill_color
    bar_left := some (.fin 0)
    bar_right := some (.fin 100)
    text_value := if w.has_text then strTrim root.text_err else st.text_value
    text_color :=
      if w.has_text then
        (if w.text_color_override.isNone then root.err_color else st.text_color)
      else st.text_color
    text_font := if w.has_text then root.font_value else st.text_font }

/-- The display-range rule exactly as the specification words it
(claim C1), for comparison with `get_range`: if the gradient's lowest
and highest stop values coincide (including the empty case where both
are absent), use the two hints, requiring both; otherwise combine each
bound independently — the smaller of gradient minimum and min hint
when both exist, whichever exists when only one does, undefined when
neither does, and symmetrically with the larger for the maximum.
Hints here are the entry hints when present (non-NaN values). -/
def get_range_claim (bar_color : ColorGradient) (h_min h_max : Option F) : Option (F × F) :=
  let g_min := (bar_color.min_stop).map Prod.fst
  let g_max := (bar_color.max_stop).map Prod.fst
  if g_min = g_max then
    match h_min, h_max with
    | some a, some b => some (a, b)
    | _, _ => none
  else
    match
      (match g_min, h_min with
       | some gm, some hm => some (min gm hm)
       | some gm, none => some gm
       | none, some hm => some hm
       | none, none => none),
      (match g_max, h_max with
       | some gm, some hm => some (max gm hm)
       | some gm, none => some gm
       | none, some hm => some hm
       | none, none => none) with
    | some v_min, some v_max => some (v_min, v_max)
    | _, _ => none

/-- The sortedness invariant of `ColorGradient::stops`: stop values
strictly ascending (hence duplicate-free). -/
def gradientSorted (g : ColorGradient) : Prop :=
  (g.stops.map Prod.fst).Pairwise (· < ·)

instance (g : ColorGradient) : Decidable (gradientSorted g) := by
  unfold gradientSorted; infer_instance

/-!
## Claim theorems
-/

/-- C10: a gradient built with `ColorGradient::single(c)` returns
`Some c` from `get_color_for_value` for every non-NaN query (the sole
stop sits at `-∞`, so every query saturates to it) and `None` for NaN;
it has exactly one stop, so its min and max stops coincide. -/
theorem c10_single_constant (c : Color) (v : Flt) :
    ColorGradient.get_color_for_value (ColorGradient.single c) v = v.map (fun _ => c)
    ∧ (ColorGradient.single c).stops.length = 1
    ∧ ColorGradient.min_stop (ColorGradient.single c)
        = ColorGradient.max_stop (ColorGradient.single c) := by
  refine ⟨?_, rfl, rfl⟩
  cases v with
  | none => rfl
  | some x =>
    simp [ColorGradient.get_color_for_value, ColorGradient.single, F.negInf_le x]

/-- C7 (counterexample): with precision 0 the seconds-only rendering
of 45 seconds is right-aligned in 8 columns, so it is not the bare
string `"45"` the claim asserts. -/
theorem c7_counterexample :
    format_pretty_time_hms 0 0 0 45 0 ≠ "45"
    ∧ format_pretty_time_hms 0 0 0 45 0 = "      45" := by
  exact ⟨by decide, by decide⟩

/-- C7 (amended): `format_pretty_time_hms` progressively collapses to
the coarsest nonzero unit, with the output right-aligned by spaces to
the full `H:MM:SS` width of 8 columns: 45 seconds render as
`"      45"` (no hours or minutes shown), minutes 5 seconds 3 as
`"    5:03"`, and hours 2 minutes 5 seconds 3 as `" 2:05:03"`. -/
theorem c7_hms_collapsing :
    format_pretty_time_hms 0 0 0 45 0 = "      45"
    ∧ format_pretty_time_hms 0 0 5 3 0 = "    5:03"
    ∧ format_pretty_time_hms 0 2 5 3 0 = " 2:05:03" := by
  refine ⟨by decide, by decide, by decide⟩

/-- C6 (counterexample): a duration of exactly 99:59:59 (which is "at
or beyond 99:59:59") with one fraction digit is not rendered as the
all-nines clamp string; it is formatted from its actual components as
`"99:59:59.0"`. -/
theorem c6_counterexample :
    format_pretty_time 1 359999 0 ≠ "99:59:59.9"
    ∧ format_pretty_time 1 359999 0 = "99:59:59.0" := by
  exact ⟨by decide, by decide⟩

/-- C6 (amended): only durations whose whole-second count strictly
exceeds 99:59:59 (i.e. `secs > 359999`, durations of at least 100
hours) take the clamp branch, which renders `"99:59:59"` followed by
exactly `precision` nines when `precision > 0` and nothing otherwise;
durations inside the final second `[99:59:59, 100:00:00)` are instead
formatted from their actual components. -/
theorem c6_clamp_above_max (precision secs nanos : ℕ)
    (h : 99 * 3600 + 59 * 60 + 59 < secs) :
    (0 < precision →
      format_pretty_time precision secs nanos
        = "99:59:59." ++ String.mk (List.replicate precision '9'))
    ∧ (precision = 0 → format_pretty_time precision secs nanos = "99:59:59") := by
  constructor
  · intro hp
    simp [format_pretty_time, h, hp]
  · intro hp
    subst hp
    simp [format_pretty_time, h]

/-- C6 (witness): at 100 hours exactly and one fraction digit the
clamp string is produced. -/
theorem c6_clamp_above_max_witness :
    format_pretty_time 1 360000 0 = "99:59:59.9" := by
  have h := (c6_clamp_above_max 1 360000 0 (by norm_num)).1 (by norm_num)
  exact h.trans (by decide)

/-- C8: each three-stop preset constructor fails exactly when an input
is NaN or the inputs are not in non-decreasing order, and on success
the gradient consists of exactly the three given stops with the
red→yellow→green (resp. green→yellow→red) colors. -/
theorem c8_preset_constructors (low mid high : Flt) :
    ((∃ g, ColorGradient.new_preset_ryg low mid high = .ok g) ↔
      (∃ l m h, low = some l ∧ mid = some m ∧ high = some h ∧ l ≤ m ∧ m ≤ h))
    ∧ ((∃ g, ColorGradient.new_preset_gyr low mid high = .ok g) ↔
      (∃ l m h, low = some l ∧ mid = some m ∧ high = some h ∧ l ≤ m ∧ m ≤ h))
    ∧ (∀ l m h : F, l ≤ m → m ≤ h →
        ColorGradient.new_preset_ryg (some l) (some m) (some h)
          = .ok ⟨[(l, Color.srgb 1 0 0), (m, Color.srgb 1 1 0), (h, Color.srgb 0 1 0)]⟩)
    ∧ (∀ l m h : F, l ≤ m → m ≤ h →
        ColorGradient.new_preset_gyr (some l) (some m) (some h)
          = .ok ⟨[(l, Color.srgb 0 1 0), (m, Color.srgb 1 1 0), (h, Color.srgb 1 0 0)]⟩) := by
  refine ⟨?_, ?_, ?_, ?_⟩
  · cases low <;> cases mid <;> cases high <;>
      simp [ColorGradient.new_preset_ryg, not_or, not_lt, ite_eq_iff, and_comm]
  · cases low <;> cases mid <;> cases high <;>
      simp [ColorGradient.new_preset_gyr, not_or, not_lt, ite_eq_iff, and_comm]
  · intro l m h hlm hmh
    simp [ColorGradient.new_preset_ryg, not_lt.mpr hlm, not_lt.mpr hmh]
  · intro l m h hlm hmh
    simp [ColorGradient.new_preset_gyr, not_lt.mpr hlm, not_lt.mpr hmh]

/-- C8 (witness): the red→yellow→green preset on 0 ≤ 1 ≤ 2 succeeds
with exactly those three stops. -/
theorem c8_preset_constructors_witness :
    ColorGradient.new_preset_ryg (some (.fin 0)) (some (.fin 1)) (some (.fin 2))
      = .ok ⟨[(.fin 0, Color.srgb 1 0 0), (.fin 1, Color.srgb 1 1 0), (.fin 2, Color.srgb 0 1 0)]⟩ := by
  exact (c8_preset_constructors (some (.fin 0)) (some (.fin 1)) (some (.fin 2))).2.2.1
    (.fin 0) (.fin 1) (.fin 2) (by decide) (by decide)

/-- C1: for every bar widget, `get_range` follows the specification's
two-step rule (`get_range_claim`): hints-only fallback requiring both
hints when the gradient extent collapses, independent per-bound
min/max combination otherwise. -/
theorem c1_get_range_two_step (g : ColorGradient) (h_min h_max : Option F) :
    get_range g (h_min.map some) (h_max.map some)
      = (get_range_claim g h_min h_max).map (fun p => ((some p.1 : Flt), (some p.2 : Flt))) := by
  cases hst : g.stops with
  | nil =>
    cases h_min <;> cases h_max <;>
      simp [get_range, get_range_claim, ColorGradient.min_stop, ColorGradient.max_stop, hst]
  | cons s t =>
    have hlast : (s :: t).getLast? = some ((s :: t).getLast (List.cons_ne_nil s t)) :=
      List.getLast?_eq_getLast_of_ne_nil _
    by_cases hv : s.1 = ((s :: t).getLast (List.cons_ne_nil s t)).1
    · cases h_min <;> cases h_max <;>
        simp [get_range, get_range_claim, ColorGradient.min_stop, ColorGradient.max_stop,
          hst, hlast, hv]
    · cases h_min <;> cases h_max <;>
        simp [get_range, get_range_claim, ColorGradient.min_stop, ColorGradient.max_stop,
          hst, hlast, hv, Flt.rmin, Flt.rmax]

/-!
### Sorted-list facts about the binary-search model
-/

theorem mem_listInsertAt {α : Type} {a y : α} :
    ∀ (k : ℕ) (l : List α), (y ∈ listInsertAt k a l ↔ y = a ∨ y ∈ l) := by
  intro k
  induction k with
  | zero => intro l; simp [listInsertAt]
  | succ n ih =>
    intro l
    cases l with
    | nil => simp [listInsertAt]
    | cons x xs =>
      simp [listInsertAt, ih xs]
      tauto

theorem map_listInsertAt {α β : Type} (f : α → β) (a : α) :
    ∀ (k : ℕ) (l : List α), (listInsertAt k a l).map f = listInsertAt k (f a) (l.map f) := by
  intro k
  induction k with
  | zero => intro l; simp [listInsertAt]
  | succ n ih =>
    intro l
    cases l with
    | nil => simp [listInsertAt]
    | cons x xs => simp [listInsertAt, ih xs]

theorem length_listModifyAt {α : Type} (f : α → α) :
    ∀ (k : ℕ) (l : List α), (listModifyAt k f l).length = l.length := by
  intro k
  induction k with
  | zero => intro l; cases l <;> simp [listModifyAt]
  | succ n ih =>
    intro l
    cases l with
    | nil => simp [listModifyAt]
    | cons x xs => simp [listModifyAt, ih xs]

theorem binarySearchByKey_ok_of_getElem (v : F) :
    ∀ (l : List F), l.Pairwise (· < ·) → ∀ i (hi : i < l.length),
      l[i] = v → binarySearchByKey v l = .ok i := by
  intro l
  induction l with
  | nil => intro _ i hi; exact absurd hi (Nat.not_lt_zero i)
  | cons x xs ih =>
    intro hp i hi hv
    rw [List.pairwise_cons] at hp
    cases i with
    | zero =>
      simp only [List.getElem_cons_zero] at hv
      simp [binarySearchByKey, hv]
    | succ j =>
      have hj : j < xs.length := by simpa using hi
      have hv' : xs[j] = v := by simpa using hv
      have hxv : x < v := hv' ▸ hp.1 _ (List.getElem_mem hj)
      have hne : x ≠ v := ne_of_lt hxv
      have hrec := ih hp.2 j hj hv'
      simp [binarySearchByKey, hne, hxv, hrec]

theorem binarySearchByKey_err_spec (v : F) :
    ∀ (l : List F), l.Pairwise (· < ·) → v ∉ l →
      ∃ k, binarySearchByKey v l = .error k ∧ k ≤ l.length
        ∧ (∀ i (hi : i < l.length), (l[i] < v ↔ i < k))
        ∧ (listInsertAt k v l).Pairwise (· < ·) := by
  intro l
  induction l with
  | nil =>
    intro _ _
    exact ⟨0, rfl, Nat.le_refl 0, fun i hi => absurd hi (Nat.not_lt_zero i), List.pairwise_singleton _ _⟩
  | cons x xs ih =>
    intro hp hv
    rw [List.pairwise_cons] at hp
    have hvx : v ≠ x := fun h => hv (h ▸ List.mem_cons_self x xs)
    have hvxs : v ∉ xs := fun h => hv (List.mem_cons_of_mem x h)
    by_cases hlt : x < v
    · obtain ⟨k, herr, hk, hiff, hins⟩ := ih hp.2 hvxs
      refine ⟨k + 1, ?_, by simpa using Nat.succ_le_succ hk, ?_, ?_⟩
      · simp [binarySearchByKey, ne_of_lt hlt, hlt, herr]
      · intro i hi
        cases i with
        | zero => simpa using hlt
        | succ j =>
          have hj : j < xs.length := by simpa using hi
          simpa using hiff j hj
      · show ((x :: listInsertAt k v xs).Pairwise (· < ·))
        rw [List.pairwise_cons]
        refine ⟨?_, hins⟩
        intro y hy
        rcases (mem_listInsertAt k xs).mp hy with h | h
        · exact h ▸ hlt
        · exact hp.1 y h
    · have hxv : v < x := lt_of_le_of_ne (not_lt.mp hlt) hvx
      refine ⟨0, ?_, Nat.zero_le _, ?_, ?_⟩
      · simp [binarySearchByKey, hxv.ne', hlt]
      · intro i hi
        simp only [Nat.not_lt_zero, iff_false]
        cases i with
        | zero => simpa using hlt
        | succ j =>
          have hj : j < xs.length := by simpa using hi
          have : x < xs[j] := hp.1 _ (List.getElem_mem hj)
          simpa using not_lt.mpr (le_of_lt (lt_trans hxv this))
      · show ((v :: x :: xs).Pairwise (· < ·))
        rw [List.pairwise_cons]
        refine ⟨?_, List.pairwise_cons.mpr hp⟩
        intro y hy
        rcases List.mem_cons.mp hy with h | h
        · exact h ▸ hxv
        · exact lt_trans hxv (hp.1 y h)

theorem addStopList_cons_of_lt {s : F × Color} {t : List (F × Color)} {v : F} {c : Color}
    (hlt : s.1 < v) :
    ColorGradient.addStopList (s :: t) v c = s :: ColorGradient.addStopList t v c := by
  simp only [ColorGradient.addStopList, List.map_cons, binarySearchByKey,
    if_neg (ne_of_lt hlt), if_pos hlt]
  cases h : binarySearchByKey v (t.map Prod.fst) <;> simp [listModifyAt, listInsertAt]

theorem addStopList_mem_eq (v : F) (c : Color) :
    ∀ (l : List (F × Color)), (l.map Prod.fst).Pairwise (· < ·) →
      v ∈ l.map Prod.fst →
      ColorGradient.addStopList l v c = l.map (fun s => if s.1 = v then (s.1, c) else s) := by
  intro l
  induction l with
  | nil => intro _ hv; simp at hv
  | cons s t ih =>
    intro hp hv
    rw [List.map_cons, List.pairwise_cons] at hp
    by_cases hs : s.1 = v
    · have htv : ∀ x ∈ t, (fun s => if s.1 = v then (s.1, c) else s) x = id x := by
        intro x hx
        have : s.1 < x.1 := hp.1 x.1 (List.mem_map_of_mem Prod.fst hx)
        have hxv : x.1 ≠ v := by rw [← hs]; exact (ne_of_lt this).symm
        simp [hxv]
      have ht : t.map (fun s => if s.1 = v then (s.1, c) else s) = t := by
        rw [List.map_congr_left htv, List.map_id]
      simp only [ColorGradient.addStopList, List.map_cons, binarySearchByKey, if_pos hs]
      simp [listModifyAt, hs, ht]
    · simp only [List.map_cons] at hv
      rcases List.mem_cons.mp hv with h | h
      · exact absurd h.symm hs
      · have hlt : s.1 < v := by
          rcases List.mem_map.mp h with ⟨x, hx, hxv⟩
          exact hxv ▸ hp.1 x.1 (List.mem_map_of_mem Prod.fst hx)
        rw [addStopList_cons_of_lt hlt, ih hp.2 h]
        simp [hs]

theorem gradientSorted_add_stop (g : ColorGradient) (hs : gradientSorted g)
    (v : Flt) (c : Color) : gradientSorted (g.add_stop v c) := by
  cases v with
  | none => exact hs
  | some v =>
    have hrepr : g.add_stop (some v) c = ⟨ColorGradient.addStopList g.stops v c⟩ := rfl
    unfold gradientSorted
    rw [hrepr]
    by_cases hv : v ∈ g.stops.map Prod.fst
    · rw [addStopList_mem_eq v c g.stops hs hv]
      have : (g.stops.map (fun s => if s.1 = v then (s.1, c) else s)).map Prod.fst
          = g.stops.map Prod.fst := by
        rw [List.map_map]
        refine List.map_congr_left ?_
        intro x _
        by_cases hx : x.1 = v <;> simp [hx]
      rw [this]
      exact hs
    · obtain ⟨k, herr, _, _, hins⟩ := binarySearchByKey_err_spec v (g.stops.map Prod.fst) hs hv
      simp only [ColorGradient.addStopList, herr]
      rw [map_listInsertAt]
      exact hins

/-- C3: starting from the empty gradient, any sequence of `add_stop`
calls keeps the stop list strictly ascending by value (hence free of
duplicate values); adding a stop at an existing value only rewrites
that stop's color, leaving the values and the count unchanged; adding
a NaN value is a no-op. -/
theorem c3_add_stop_invariants :
    (∀ ops : List (Flt × Color),
      gradientSorted (ops.foldl (fun g p => g.add_stop p.1 p.2) ColorGradient.new))
    ∧ (∀ (g : ColorGradient) (v : F) (c : Color), gradientSorted g →
        v ∈ g.stops.map Prod.fst →
        (g.add_stop (some v) c).stops
            = g.stops.map (fun s => if s.1 = v then (s.1, c) else s)
          ∧ (g.add_stop (some v) c).stops.length = g.stops.length
          ∧ (g.add_stop (some v) c).stops.map Prod.fst = g.stops.map Prod.fst)
    ∧ (∀ (g : ColorGradient) (c : Color), g.add_stop none c = g) := by
  refine ⟨?_, ?_, fun g c => rfl⟩
  · have key : ∀ (ops : List (Flt × Color)) (g : ColorGradient), gradientSorted g →
        gradientSorted (ops.foldl (fun g p => g.add_stop p.1 p.2) g) := by
      intro ops
      induction ops with
      | nil => intro g hg; exact hg
      | cons p ps ih =>
        intro g hg
        exact ih _ (gradientSorted_add_stop g hg p.1 p.2)
    intro ops
    exact key ops ColorGradient.new List.Pairwise.nil
  · intro g v c hs hv
    have hrepr : (g.add_stop (some v) c).stops = ColorGradient.addStopList g.stops v c := rfl
    have heq := addStopList_mem_eq v c g.stops hs hv
    refine ⟨hrepr.trans heq, ?_, ?_⟩
    · rw [hrepr, heq, List.length_map]
    · rw [hrepr, heq, List.map_map]
      refine List.map_congr_left ?_
      intro x _
      by_cases hx : x.1 = v <;> simp [hx]

/-- C3 (witness): replacing the color at the existing value 2 in a
concrete two-stop gradient changes neither the values nor the count. -/
theorem c3_add_stop_invariants_witness :
    (ColorGradient.add_stop ⟨[(.fin 2, Color.srgb 1 0 0), (.fin 5, Color.srgb 0 1 0)]⟩
        (some (.fin 2)) (Color.srgb 0 0 1)).stops
      = [(.fin 2, Color.srgb 0 0 1), (.fin 5, Color.srgb 0 1 0)] := by
  have h := (c3_add_stop_invariants.2.1 ⟨[(.fin 2, Color.srgb 1 0 0), (.fin 5, Color.srgb 0 1 0)]⟩
    (.fin 2) (Color.srgb 0 0 1) (by decide) (by decide)).1
  exact h.trans (by decide)

theorem gradientSorted_getElem_lt {g : ColorGradient} (hs : gradientSorted g) {i j : ℕ}
    (hi : i < g.stops.length) (hj : j < g.stops.length) (hij : i < j) :
    (g.stops[i]).1 < (g.stops[j]).1 := by
  have h1 : i < (g.stops.map Prod.fst).length := by simpa using hi
  have h2 : j < (g.stops.map Prod.fst).length := by simpa using hj
  have := List.pairwise_iff_getElem.mp hs i j h1 h2 hij
  simpa using this

theorem gradientSorted_getElem_le {g : ColorGradient} (hs : gradientSorted g) {i j : ℕ}
    (hi : i < g.stops.length) (hj : j < g.stops.length) (hij : i ≤ j) :
    (g.stops[i]).1 ≤ (g.stops[j]).1 := by
  rcases Nat.lt_or_ge i j with h | h
  · exact le_of_lt (gradientSorted_getElem_lt hs hi hj h)
  · have hji : i = j := Nat.le_antisymm hij h
    subst hji
    exact le_refl _

/-- C2: `get_color_for_value` on a (sorted, as maintained by
construction) gradient: NaN gives `None`; the empty gradient gives
`None`; values at or above the highest stop give its color, values at
or below the lowest stop give its color; a value equal to some stop's
value gives that stop's color; any other in-range value gives the mix
of the two bracketing stops' colors at the value's fractional position
between them. -/
theorem c2_get_color_for_value_cases (g : ColorGradient) (hs : gradientSorted g) :
    (ColorGradient.get_color_for_value g none = none)
    ∧ (g.stops = [] → ∀ v : Flt, ColorGradient.get_color_for_value g v = none)
    ∧ (∀ b0 bn : F × Color, g.stops.head? = some b0 → g.stops.getLast? = some bn →
        (∀ v : F, bn.1 ≤ v → ColorGradient.get_color_for_value g (some v) = some bn.2)
        ∧ (∀ v : F, v ≤ b0.1 → ColorGradient.get_color_for_value g (some v) = some b0.2))
    ∧ (∀ (i : ℕ) (hi : i < g.stops.length),
        ColorGradient.get_color_for_value g (some ((g.stops[i]).1))
          = some ((g.stops[i]).2))
    ∧ (∀ (v : F) (b0 bn : F × Color), g.stops.head? = some b0 → g.stops.getLast? = some bn →
        b0.1 < v → v < bn.1 → (∀ s ∈ g.stops, s.1 ≠ v) →
        ∃ (k : ℕ) (_hk1 : 0 < k) (hk2 : k < g.stops.length),
          (g.stops[k - 1]).1 < v ∧ v < (g.stops[k]).1 ∧
          ColorGradient.get_color_for_value g (some v)
            = some (Color.mix ((g.stops[k - 1]).2) ((g.stops[k]).2)
                (Flt.div (Flt.sub (some v) (some ((g.stops[k - 1]).1)))
                  (Flt.sub (some ((g.stops[k]).1)) (some ((g.stops[k - 1]).1)))))) := by
  refine ⟨rfl, ?_, ?_, ?_, ?_⟩
  · intro hnil v
    cases v with
    | none => rfl
    | some x => simp [ColorGradient.get_color_for_value, hnil]
  · intro b0 bn hhead hlast
    have hne : g.stops ≠ [] := by
      intro hnil
      rw [hnil] at hhead
      exact absurd hhead (by simp)
    have n0 : 0 < g.stops.length := List.length_pos.mpr hne
    have hb0 : b0 = g.stops[0] := by
      have h1 := (hhead.symm.trans (List.head?_eq_head hne))
      rw [List.head_eq_getElem] at h1
      exact Option.some.inj h1
    have hbn : bn = g.stops[g.stops.length - 1] := by
      have h1 := (hlast.symm.trans (List.getLast?_eq_getLast_of_ne_nil hne))
      rw [List.getLast_eq_getElem] at h1
      exact Option.some.inj h1
    constructor
    · intro v hv
      simp only [ColorGradient.get_color_for_value, hhead, hlast]
      rw [if_pos hv]
    · intro v hv
      simp only [ColorGradient.get_color_for_value, hhead, hlast]
      by_cases h1 : bn.1 ≤ v
      · rw [if_pos h1]
        have hble : bn.1 ≤ b0.1 := le_trans h1 hv
        have hb0le : b0.1 ≤ bn.1 := by
          rw [hb0, hbn]
          exact gradientSorted_getElem_le hs n0 (by omega) (by omega)
        have heq : (0 : ℕ) = g.stops.length - 1 := by
          by_contra hne2
          have hlt : 0 < g.stops.length - 1 := by omega
          have := gradientSorted_getElem_lt hs n0 (by omega) hlt
          rw [← hb0, ← hbn] at this
          exact absurd (le_antisymm hb0le hble) (ne_of_lt this)
        have hpair : b0 = bn := by
          rw [hb0, hbn]
          congr 1
        rw [hpair]
      · rw [if_neg h1, if_pos hv]
  · intro i hi
    have hne : g.stops ≠ [] := List.ne_nil_of_length_pos (by omega)
    have n0 : 0 < g.stops.length := by omega
    have hhead : g.stops.head? = some (g.stops[0]) := by
      rw [List.head?_eq_head hne, List.head_eq_getElem]
    have hlast : g.stops.getLast? = some (g.stops[g.stops.length - 1]) := by
      rw [List.getLast?_eq_getLast_of_ne_nil hne, List.getLast_eq_getElem]
    simp only [ColorGradient.get_color_for_value, hhead, hlast]
    by_cases h1 : (g.stops[g.stops.length - 1]).1 ≤ (g.stops[i]).1
    · rw [if_pos h1]
      have heq : i = g.stops.length - 1 := by
        by_contra hne2
        have hlt : i < g.stops.length - 1 := by omega
        exact absurd h1 (not_le.mpr (gradientSorted_getElem_lt hs hi (by omega) hlt))
      subst heq
      rfl
    · rw [if_neg h1]
      by_cases h2 : (g.stops[i]).1 ≤ (g.stops[0]).1
      · rw [if_pos h2]
        have heq : i = 0 := by
          by_contra hne2
          have hlt : 0 < i := by omega
          exact absurd h2 (not_le.mpr (gradientSorted_getElem_lt hs n0 hi hlt))
        subst heq
        rfl
      · rw [if_neg h2]
        have hok := binarySearchByKey_ok_of_getElem ((g.stops[i]).1)
          (g.stops.map Prod.fst) hs i (by simpa using hi) (by simp)
        simp only [hok, List.get?_eq_getElem?]
        rw [List.getElem?_eq_getElem hi]
        rfl
  · intro v b0 bn hhead hlast h0 h1 hnev
    have hne : g.stops ≠ [] := by
      intro hnil
      rw [hnil] at hhead
      exact absurd hhead (by simp)
    have n0 : 0 < g.stops.length := List.length_pos.mpr hne
    have hb0 : b0 = g.stops[0] := by
      have hx := (hhead.symm.trans (List.head?_eq_head hne))
      rw [List.head_eq_getElem] at hx
      exact Option.some.inj hx
    have hbn : bn = g.stops[g.stops.length - 1] := by
      have hx := (hlast.symm.trans (List.getLast?_eq_getLast_of_ne_nil hne))
      rw [List.getLast_eq_getElem] at hx
      exact Option.some.inj hx
    have hvm : v ∉ g.stops.map Prod.fst := by
      intro hmem
      rcases List.mem_map.mp hmem with ⟨s, hsmem, hfst⟩
      exact hnev s hsmem hfst
    obtain ⟨k, herr, hk_le, hiff, _⟩ :=
      binarySearchByKey_err_spec v (g.stops.map Prod.fst) hs hvm
    have hlen : (g.stops.map Prod.fst).length = g.stops.length := by simp
    have hiff2 : ∀ (j : ℕ) (hj : j < g.stops.length), ((g.stops[j]).1 < v ↔ j < k) := by
      intro j hj
      have hj2 : j < (g.stops.map Prod.fst).length := by rw [hlen]; exact hj
      have := hiff j hj2
      rwa [List.getElem_map] at this
    have hk_pos : 0 < k := (hiff2 0 n0).mp (hb0 ▸ h0)
    have hk_lt : k < g.stops.length := by
      by_contra hge
      push_neg at hge
      have hx := (hiff2 (g.stops.length - 1) (by omega)).mpr (by omega)
      rw [← hbn] at hx
      exact absurd h1 (not_lt.mpr (le_of_lt hx))
    have hlo : (g.stops[k - 1]).1 < v := (hiff2 (k - 1) (by omega)).mpr (by omega)
    have hhi : v < (g.stops[k]).1 := by
      have hnot : ¬ ((g.stops[k]).1 < v) := by
        intro hc
        have := (hiff2 k hk_lt).mp hc
        omega
      have hneq : (g.stops[k]).1 ≠ v := hnev _ (List.getElem_mem hk_lt)
      exact lt_of_le_of_ne (not_lt.mp hnot) (Ne.symm hneq)
    refine ⟨k, hk_pos, hk_lt, hlo, hhi, ?_⟩
    simp only [ColorGradient.get_color_for_value, hhead, hlast]
    rw [if_neg (not_le.mpr h1), if_neg (not_le.mpr h0)]
    simp only [herr, List.get?_eq_getElem?]
    rw [List.getElem?_eq_getElem (show k - 1 < g.stops.length by omega),
      List.getElem?_eq_getElem hk_lt]

/-- C2 (witness): on a concrete sorted two-stop gradient, a query
above the highest stop saturates to that stop's color. -/
theorem c2_get_color_for_value_cases_witness :
    ColorGradient.get_color_for_value
        ⟨[(.fin 0, Color.srgb 1 0 0), (.fin 10, Color.srgb 0 1 0)]⟩ (some (.fin 99))
      = some (Color.srgb 0 1 0) := by
  exact ((c2_get_color_for_value_cases
      ⟨[(.fin 0, Color.srgb 1 0 0), (.fin 10, Color.srgb 0 1 0)]⟩ (by decide)).2.2.1
    (.fin 0, Color.srgb 1 0 0) (.fin 10, Color.srgb 0 1 0) rfl rfl).1 (.fin 99) (by decide)

theorem rmin_some_le {x : F} {y : Flt} {z : F} (h : Flt.rmin (some x) y = some z) : z ≤ x := by
  cases y with
  | none =>
    simp only [Flt.rmin] at h
    rw [← Option.some.inj h]
  | some b =>
    simp only [Flt.rmin] at h
    rw [← Option.some.inj h]
    exact min_le_left x b

theorem rmax_some_ge {x : F} {y : Flt} {z : F} (h : Flt.rmax (some x) y = some z) : x ≤ z := by
  cases y with
  | none =>
    simp only [Flt.rmax] at h
    rw [← Option.some.inj h]
  | some b =>
    simp only [Flt.rmax] at h
    rw [← Option.some.inj h]
    exact le_max_left x b

theorem sorted_head_le_getLast {s : F × Color} {t : List (F × Color)}
    (hp : ((s :: t).map Prod.fst).Pairwise (· < ·)) :
    s.1 ≤ ((s :: t).getLast (List.cons_ne_nil s t)).1 := by
  rw [List.map_cons, List.pairwise_cons] at hp
  rcases List.mem_cons.mp (List.getLast_mem (List.cons_ne_nil s t)) with h | h
  · rw [h]
  · exact le_of_lt (hp.1 _ (List.mem_map_of_mem Prod.fst h))

/-- C9 (counterexample): with an empty gradient (fallback branch) the
entry hints are returned unchecked, so hints 5 and 3 produce
`Some((5, 3))` with `min > max`. -/
theorem c9_counterexample :
    get_range ColorGradient.new (some (some (.fin 5))) (some (some (.fin 3)))
      = some (some (.fin 5), some (.fin 3))
    ∧ ¬ Flt.fle (some (.fin 5)) (some (.fin 3)) := by
  exact ⟨by decide, by decide⟩

/-- C9 (amended): whenever `get_range` returns `Some((min, max))`,
`min ≤ max` holds provided the entry hints are ordered whenever both
are present (`min hint ≤ max hint`, neither NaN); the proviso is
needed because the fallback branch returns the two hints unchecked. -/
theorem c9_range_min_le_max (g : ColorGradient) (hs : gradientSorted g)
    (h_min h_max : Option Flt)
    (hord : ∀ a b : Flt, h_min = some a → h_max = some b → Flt.fle a b) :
    ∀ mn mx : Flt, get_range g h_min h_max = some (mn, mx) → Flt.fle mn mx := by
  intro mn mx h
  cases hst : g.stops with
  | nil =>
    simp only [get_range, ColorGradient.min_stop, ColorGradient.max_stop, hst] at h
    cases h_min with
    | none => simp at h
    | some a =>
      cases h_max with
      | none => simp at h
      | some b =>
        simp only [Option.map_none', if_pos rfl, List.head?_nil, List.getLast?_nil] at h
        obtain ⟨h1, h2⟩ := Prod.mk.injEq .. ▸ Option.some.inj h
        exact h1 ▸ h2 ▸ hord a b rfl rfl
  | cons s t =>
    have hL : (s :: t).getLast? = some ((s :: t).getLast (List.cons_ne_nil s t)) :=
      List.getLast?_eq_getLast_of_ne_nil _
    have hsl : s.1 ≤ ((s :: t).getLast (List.cons_ne_nil s t)).1 := by
      unfold gradientSorted at hs
      rw [hst] at hs
      exact sorted_head_le_getLast hs
    simp only [get_range, ColorGradient.min_stop, ColorGradient.max_stop, hst,
      List.head?_cons, hL, Option.map_some'] at h
    by_cases hv : s.1 = ((s :: t).getLast (List.cons_ne_nil s t)).1
    · rw [if_pos (by rw [hv])] at h
      cases h_min with
      | none => simp at h
      | some a =>
        cases h_max with
        | none => simp at h
        | some b =>
          obtain ⟨h1, h2⟩ := Prod.mk.injEq .. ▸ Option.some.inj h
          exact h1 ▸ h2 ▸ hord a b rfl rfl
    · rw [if_neg (by simpa using hv)] at h
      have hmin : ∃ z : F, mn = some z ∧ z ≤ s.1 := by
        cases h_min with
        | none =>
          cases h_max with
          | none =>
            obtain ⟨h1, _⟩ := Prod.mk.injEq .. ▸ Option.some.inj h
            exact ⟨s.1, h1.symm, le_refl _⟩
          | some b =>
            obtain ⟨h1, _⟩ := Prod.mk.injEq .. ▸ Option.some.inj h
            exact ⟨s.1, h1.symm, le_refl _⟩
        | some a =>
          cases h_max with
          | none =>
            obtain ⟨h1, _⟩ := Prod.mk.injEq .. ▸ Option.some.inj h
            cases hz : Flt.rmin (some s.1) a with
            | none => rw [hz] at h1; cases a <;> simp [Flt.rmin] at hz
            | some z => exact ⟨z, by rw [← h1, hz], rmin_some_le hz⟩
          | some b =>
            obtain ⟨h1, _⟩ := Prod.mk.injEq .. ▸ Option.some.inj h
            cases hz : Flt.rmin (some s.1) a with
            | none => rw [hz] at h1; cases a <;> simp [Flt.rmin] at hz
            | some z => exact ⟨z, by rw [← h1, hz], rmin_some_le hz⟩
      have hmax : ∃ z : F, mx = some z
          ∧ ((s :: t).getLast (List.cons_ne_nil s t)).1 ≤ z := by
        cases h_min with
        | none =>
          cases h_max with
          | none =>
            obtain ⟨_, h2⟩ := Prod.mk.injEq .. ▸ Option.some.inj h
            exact ⟨_, h2.symm, le_refl _⟩
          | some b =>
            obtain ⟨_, h2⟩ := Prod.mk.injEq .. ▸ Option.some.inj h
            cases hz : Flt.rmax (some (((s :: t).getLast (List.cons_ne_nil s t)).1)) b with
            | none => rw [hz] at h2; cases b <;> simp [Flt.rmax] at hz
            | some z => exact ⟨z, by rw [← h2, hz], rmax_some_ge hz⟩
        | some a =>
          cases h_max with
          | none =>
            obtain ⟨_, h2⟩ := Prod.mk.injEq .. ▸ Option.some.inj h
            exact ⟨_, h2.symm, le_refl _⟩
          | some b =>
            obtain ⟨_, h2⟩ := Prod.mk.injEq .. ▸ Option.some.inj h
            cases hz : Flt.rmax (some (((s :: t).getLast (List.cons_ne_nil s t)).1)) b with
            | none => rw [hz] at h2; cases b <;> simp [Flt.rmax] at hz
            | some z => exact ⟨z, by rw [← h2, hz], rmax_some_ge hz⟩
      obtain ⟨z1, hmn, hz1⟩ := hmin
      obtain ⟨z2, hmx, hz2⟩ := hmax
      rw [hmn, hmx]
      show z1 ≤ z2
      exact le_trans hz1 (le_trans hsl hz2)

/-- C9 (witness): a concrete sorted two-stop gradient with no hints
yields an ordered range. -/
theorem c9_range_min_le_max_witness :
    Flt.fle (some (.fin 0)) (some (.fin 10)) := by
  exact c9_range_min_le_max
    ⟨[(.fin 0, Color.srgb 1 0 0), (.fin 10, Color.srgb 0 1 0)]⟩ (by decide)
    none none (fun a b h1 _ => absurd h1 (by simp))
    (some (.fin 0)) (some (.fin 10)) (by decide)

theorem bar_update_none_eq (root : PerfUiRoot) (w : PerfUiWidgetBar V) (st : BarState) :
    PerfUiWidgetBar.update root w none st = barErrTick root w st := by
  unfold PerfUiWidgetBar.update barErrTick
  cases hr : get_range w.bar_color w.entry.min_value_hint w.entry.max_value_hint with
  | none => cases hht : w.has_text <;> rfl
  | some p =>
    obtain ⟨a, b⟩ := p
    cases hht : w.has_text <;> rfl

theorem barErrTick_idem (root : PerfUiRoot) (w : PerfUiWidgetBar V) (st : BarState) :
    barErrTick root w (barErrTick root w st) = barErrTick root w st := by
  unfold barErrTick
  cases hht : w.has_text
  · simp
  · cases hov : w.text_color_override <;> simp [hov]

/-- C4 (counterexample): a bar widget configured with a
`text_color_override` keeps the override color when its fetch returns
`None` — the error color is not pushed to its text node, contrary to
the claim's unconditional "pushes ... the error color". -/
theorem c4_counterexample :
    (PerfUiWidgetBar.update
        ⟨"N/A", Color.srgb 1 0 0, Color.srgb 1 1 1, 0, 1, Color.srgb 0 0 0, Color.srgb 1 0 1⟩
        ⟨true, some (Color.srgb 0 0 1), .left, ColorGradient.new,
          ⟨fun _ => "x", fun _ => none, fun _ => false, 3, none, none, fun _ => none⟩⟩
        (none : Option Unit)
        ⟨Color.srgb 0 0 0, Color.trNone, some (.fin 0), some (.fin 100), "", Color.srgb 0 0 1, 0⟩).text_color
      = Color.srgb 0 0 1
    ∧ Color.srgb 0 0 1 ≠ Color.srgb 1 0 0 := by
  exact ⟨by decide, by decide⟩

/-- C4 (amended): on every tick whose fetch returns `None` — and over
any number of consecutive such ticks — the text-mode update writes the
padded placeholder text, the error color, the normal font and the
non-highlighted background (`entryErrState`), and the bar update
writes the non-highlighted background, an empty bar, the trimmed
placeholder text and the normal font, with the error color except
that a configured text color override keeps the override color
(`barErrTick`); a failed fetch is never rendered highlighted. -/
theorem c4_failed_fetch_not_highlighted :
    (∀ (V : Type) (root : PerfUiRoot) (e : EntryImpl V) (st : EntryState),
      update_perf_ui_entry root e none st = entryErrState root e)
    ∧ (∀ (V : Type) (root : PerfUiRoot) (e : EntryImpl V) (st : EntryState) (n : ℕ), 0 < n →
        runEntryTicks root e (List.replicate n (none : Option V)) st = entryErrState root e)
    ∧ (∀ (V : Type) (root : PerfUiRoot) (w : PerfUiWidgetBar V) (st : BarState) (n : ℕ), 0 < n →
        runBarTicks root w (List.replicate n (none : Option V)) st = barErrTick root w st) := by
  have hstep : ∀ (V : Type) (root : PerfUiRoot) (e : EntryImpl V) (st : EntryState),
      update_perf_ui_entry root e none st = entryErrState root e := by
    intro V root e st
    rfl
  refine ⟨hstep, ?_, ?_⟩
  · intro V root e st n
    induction n generalizing st with
    | zero => intro h; exact absurd h (by omega)
    | succ m ih =>
      intro _
      rw [List.replicate_succ]
      show runEntryTicks root e (List.replicate m none)
        (update_perf_ui_entry root e none st) = entryErrState root e
      cases m with
      | zero => exact hstep V root e st
      | succ m2 => exact ih _ (Nat.succ_pos m2)
  · intro V root w st n
    induction n generalizing st with
    | zero => intro h; exact absurd h (by omega)
    | succ m ih =>
      intro _
      rw [List.replicate_succ]
      show runBarTicks root w (List.replicate m none)
        (PerfUiWidgetBar.update root w none st) = barErrTick root w st
      cases m with
      | zero => exact bar_update_none_eq root w st
      | succ m2 =>
        rw [bar_update_none_eq root w st, ih (barErrTick root w st) (Nat.succ_pos m2)]
        exact barErrTick_idem root w st

/-- C4 (witness): three consecutive failing ticks on a concrete bar
widget without override render the trimmed placeholder with the error
color, the normal font and the non-highlighted background. -/
theorem c4_failed_fetch_not_highlighted_witness :
    runBarTicks
        ⟨"N/A", Color.srgb 1 0 0, Color.srgb 1 1 1, 0, 1, Color.srgb 0 0 0, Color.srgb 1 0 1⟩
        ⟨true, none, .left, ColorGradient.new,
          ⟨fun _ => "x", fun _ => none, fun _ => false, 3, none, none, fun _ => none⟩⟩
        (List.replicate 3 (none : Option Unit))
        ⟨Color.srgb 0 0 0, Color.trNone, some (.fin 0), some (.fin 100), "", Color.srgb 1 1 1, 1⟩
      = ⟨Color.srgb 0 0 0, Color.trNone, some (.fin 0), some (.fin 100), "N/A", Color.srgb 1 0 0, 0⟩ := by
  exact (c4_failed_fetch_not_highlighted.2.2 Unit
      ⟨"N/A", Color.srgb 1 0 0, Color.srgb 1 1 1, 0, 1, Color.srgb 0 0 0, Color.srgb 1 0 1⟩
      ⟨true, none, .left, ColorGradient.new,
        ⟨fun _ => "x", fun _ => none, fun _ => false, 3, none, none, fun _ => none⟩⟩
      ⟨Color.srgb 0 0 0, Color.trNone, some (.fin 0), some (.fin 100), "", Color.srgb 1 1 1, 1⟩
      3 (by norm_num)).trans (by decide)

/-!
### Decimal-length facts for the float formatter
-/

theorem string_mk_length (l : List Char) : (String.mk l).length = l.length := rfl

theorem natDigitsAux_length_le :
    ∀ (fuel n k : ℕ), n ≤ fuel → n < 10 ^ k → (natDigitsAux fuel n).length ≤ k := by
  intro fuel
  induction fuel with
  | zero =>
    intro n k hn _
    have : n = 0 := Nat.le_zero.mp hn
    subst this
    simp [natDigitsAux]
  | succ f ih =>
    intro n k hn hk
    cases n with
    | zero => simp [natDigitsAux]
    | succ m =>
      cases k with
      | zero =>
        simp at hk
      | succ k2 =>
        have hdiv_le : (m + 1) / 10 ≤ f := by
          have h1 : (m + 1) / 10 < m + 1 := Nat.div_lt_self (Nat.succ_pos m) (by norm_num)
          omega
        have hdiv_lt : (m + 1) / 10 < 10 ^ k2 := by
          rw [Nat.div_lt_iff_lt_mul (by norm_num : 0 < 10)]
          calc m + 1 < 10 ^ (k2 + 1) := hk
          _ = 10 ^ k2 * 10 := by rw [pow_succ]
        have := ih ((m + 1) / 10) k2 hdiv_le hdiv_lt
        simp only [natDigitsAux, List.length_cons]
        omega

theorem natDigitsAux_length_lower :
    ∀ (fuel n k : ℕ), n ≤ fuel → 10 ^ k ≤ n → k + 1 ≤ (natDigitsAux fuel n).length := by
  intro fuel
  induction fuel with
  | zero =>
    intro n k hn hk
    have : n = 0 := Nat.le_zero.mp hn
    subst this
    have hp : 0 < 10 ^ k := pow_pos (by norm_num) k
    omega
  | succ f ih =>
    intro n k hn hk
    cases n with
    | zero =>
      have hp : 0 < 10 ^ k := pow_pos (by norm_num) k
      omega
    | succ m =>
      cases k with
      | zero => simp [natDigitsAux]
      | succ k2 =>
        have hdiv_le : (m + 1) / 10 ≤ f := by
          have h1 : (m + 1) / 10 < m + 1 := Nat.div_lt_self (Nat.succ_pos m) (by norm_num)
          omega
        have hdiv_ge : 10 ^ k2 ≤ (m + 1) / 10 := by
          rw [Nat.le_div_iff_mul_le (by norm_num : 0 < 10)]
          calc 10 ^ k2 * 10 = 10 ^ (k2 + 1) := by rw [pow_succ]
          _ ≤ m + 1 := hk
        have := ih ((m + 1) / 10) k2 hdiv_le hdiv_ge
        simp only [natDigitsAux, List.length_cons]
        omega

theorem natToStr_length_le {n k : ℕ} (h : n < 10 ^ k) (hk : 0 < k) :
    (natToStr n).length ≤ k := by
  unfold natToStr
  by_cases hn : n = 0
  · rw [if_pos hn]
    exact hk
  · rw [if_neg hn]
    rw [string_mk_length, List.length_map, List.length_reverse]
    exact natDigitsAux_length_le n n k (le_refl n) h

theorem natToStr_length_lower {n k : ℕ} (h : 10 ^ k ≤ n) :
    k + 1 ≤ (natToStr n).length := by
  unfold natToStr
  have hp : 0 < n := lt_of_lt_of_le (pow_pos (by norm_num) k) h
  rw [if_neg (Nat.pos_iff_ne_zero.mp hp)]
  rw [string_mk_length, List.length_map, List.length_reverse]
  exact natDigitsAux_length_lower n n k (le_refl n) h

theorem zpad_length {w n : ℕ} (h : (natToStr n).length ≤ w) : (zpad w n).length = w := by
  unfold zpad
  rw [String.length_append, string_mk_length, List.length_replicate]
  omega

theorem rne_cases (y : ℚ) : rne y = ⌊y⌋ ∨ rne y = ⌊y⌋ + 1 := by
  unfold rne
  split
  · exact Or.inl rfl
  · split
    · exact Or.inr rfl
    · split
      · exact Or.inl rfl
      · exact Or.inr rfl

theorem rne_nonneg {y : ℚ} (h : 0 ≤ y) : 0 ≤ rne y := by
  have hf : (0 : ℤ) ≤ ⌊y⌋ := Int.floor_nonneg.mpr h
  rcases rne_cases y with h1 | h1 <;> omega

theorem rne_le_floor_add_one (y : ℚ) : rne y ≤ ⌊y⌋ + 1 := by
  rcases rne_cases y with h1 | h1 <;> omega

theorem rne_natCast (n : ℕ) : rne ((n : ℚ)) = (n : ℤ) := by
  unfold rne
  rw [Int.floor_natCast]
  have hcond : (n : ℚ) - (((n : ℤ) : ℚ)) < 1 / 2 := by push_cast; norm_num
  rw [if_pos hcond]

theorem fmtFixed_length_le {p : ℕ} {x : ℚ} {k : ℕ} (hx0 : 0 ≤ x) (hxk : x < 10 ^ k)
    (hk : 0 < k) :
    (fmtFixed p x).length ≤ k + 1 + (if 0 < p then p + 1 else 0) := by
  unfold fmtFixed
  have habs : |x| = x := abs_of_nonneg hx0
  have hylt : |x| * 10 ^ p < 10 ^ (k + p) := by
    rw [habs, pow_add]
    exact mul_lt_mul_of_pos_right hxk (by positivity)
  have hfloor : ⌊|x| * 10 ^ p⌋ < (10 : ℤ) ^ (k + p) := by
    rw [Int.floor_lt]
    push_cast
    exact hylt
  have hrne : rne (|x| * 10 ^ p) ≤ (10 : ℤ) ^ (k + p) :=
    le_trans (rne_le_floor_add_one _) (by omega)
  have hnle : (rne (|x| * 10 ^ p)).toNat ≤ 10 ^ (k + p) := by
    rw [Int.toNat_le]
    refine le_trans hrne ?_
    push_cast
    exact le_refl _
  have hdivlt : (rne (|x| * 10 ^ p)).toNat / 10 ^ p < 10 ^ (k + 1) := by
    have h1 : (rne (|x| * 10 ^ p)).toNat / 10 ^ p ≤ 10 ^ k := by
      have h2 := Nat.div_le_div_right (c := 10 ^ p) hnle
      rwa [pow_add, Nat.mul_div_cancel _ (pow_pos (by norm_num) p)] at h2
    have h3 : (10 : ℕ) ^ (k + 1) = 10 ^ k * 10 := by rw [pow_succ]
    have h4 : 0 < (10 : ℕ) ^ k := pow_pos (by norm_num) k
    omega
  rw [if_neg (not_lt.mpr hx0)]
  have hint : (natToStr ((rne (|x| * 10 ^ p)).toNat / 10 ^ p)).length ≤ k + 1 :=
    natToStr_length_le hdivlt (by omega)
  by_cases hp : 0 < p
  · rw [if_pos hp, if_pos hp]
    have hfrac0 : (rne (|x| * 10 ^ p)).toNat % 10 ^ p < 10 ^ p :=
      Nat.mod_lt _ (pow_pos (by norm_num) p)
    have hfraclen : (natToStr ((rne (|x| * 10 ^ p)).toNat % 10 ^ p)).length ≤ p :=
      natToStr_length_le hfrac0 hp
    rw [String.length_append, String.length_append, String.length_append,
      zpad_length hfraclen]
    have h5 : ("" : String).length = 0 := rfl
    have h6 : ("." : String).length = 1 := rfl
    omega
  · rw [if_neg hp, if_neg hp]
    rw [String.length_append, String.length_append]
    have h5 : ("" : String).length = 0 := rfl
    omega

/-- C5 (counterexample): no function of `digits` and `precision` alone
bounds the output length of `format_pretty_float`: negative inputs are
never clamped (the code only clamps `value >= max`), so the rendered
length grows without bound with the magnitude — for any candidate
bound `B = f 2 3`, the input `-(10^(B+1))` renders with length
`B + 7 > B`. -/
theorem c5_counterexample :
    ¬ ∃ f : ℕ → ℕ → ℕ, ∀ (digits precision : ℕ) (value : ℚ), 1 ≤ digits →
        (format_pretty_float digits precision value).length ≤ f digits precision := by
  rintro ⟨f, hf⟩
  set B := f 2 3 with hB
  have hval := hf 2 3 (-((10 : ℚ) ^ (B + 1))) (by norm_num)
  have hpow : (0 : ℚ) < (10 : ℚ) ^ (B + 1) := by positivity
  have hkey : format_pretty_float 2 3 (-((10 : ℚ) ^ (B + 1)))
      = "-" ++ natToStr (10 ^ (B + 1)) ++ ("." ++ zpad 3 (0 : ℕ)) := by
    simp only [format_pretty_float]
    rw [if_neg (not_le.mpr (by
      have h0 : (0 : ℚ) < (10 : ℚ) ^ (max 2 1) := by positivity
      linarith))]
    simp only [fmtFixed]
    rw [if_pos (neg_lt_zero.mpr hpow)]
    have h1 : |(-((10 : ℚ) ^ (B + 1)))| * 10 ^ 3 = ((10 ^ (B + 4) : ℕ) : ℚ) := by
      rw [abs_neg, abs_of_pos hpow]
      push_cast
      ring
    rw [h1, rne_natCast, Int.toNat_natCast]
    have h3 : (10 : ℕ) ^ (B + 4) / 10 ^ 3 = 10 ^ (B + 1) := by
      rw [show (10 : ℕ) ^ (B + 4) = 10 ^ (B + 1) * 10 ^ 3 from by rw [← pow_add],
        Nat.mul_div_cancel _ (by norm_num)]
    have h4 : (10 : ℕ) ^ (B + 4) % 10 ^ 3 = 0 := by
      rw [show (10 : ℕ) ^ (B + 4) = 10 ^ (B + 1) * 10 ^ 3 from by rw [← pow_add]]
      exact Nat.mul_mod_left _ _
    rw [h3, h4, if_pos (by norm_num : (0 : ℕ) < 3)]
  rw [hkey] at hval
  have hlow : B + 2 ≤ (natToStr (10 ^ (B + 1))).length :=
    natToStr_length_lower (le_refl (10 ^ (B + 1)))
  have hlen : ("-" ++ natToStr (10 ^ (B + 1)) ++ ("." ++ zpad 3 (0 : ℕ))).length
      = 1 + (natToStr (10 ^ (B + 1))).length + 4 := by
    rw [String.length_append, String.length_append, String.length_append]
    have e1 : ("-" : String).length = 1 := rfl
    have e2 : ("." : String).length = 1 := rfl
    have e3 : (zpad 3 (0 : ℕ)).length = 3 := rfl
    omega
  omega

/-- C5 (amended): for all `digits`, `precision` and every
**non-negative** input, the output length of `format_pretty_float` is
bounded by `max digits 1 + 1` integer characters plus
`precision + 1` fraction characters (when `precision > 0`),
independently of the input's magnitude, because non-negative values at
or above `10^digits` are clamped to `10^digits - 10^-precision`
before rendering; in particular
`format_pretty_float 2 3 1e9 = format_pretty_float 2 3 99.999`.
(Negative values are not clamped, see the counterexample.) -/
theorem c5_format_float_bounded (digits precision : ℕ) (value : ℚ) (hv : 0 ≤ value) :
    (format_pretty_float digits precision value).length
      ≤ max digits 1 + 1 + (if 0 < precision then precision + 1 else 0)
    ∧ format_pretty_float 2 3 (10 ^ 9) = format_pretty_float 2 3 (99999 / 1000) := by
  constructor
  · simp only [format_pretty_float]
    have hd1 : 0 < max digits 1 := lt_of_lt_of_le one_pos (le_max_right digits 1)
    by_cases hclamp : (10 : ℚ) ^ (max digits 1) ≤ value
    · rw [if_pos hclamp]
      have h1 : (1 : ℚ) ≤ 10 ^ precision := by
        calc (1 : ℚ) = 10 ^ 0 := by norm_num
        _ ≤ 10 ^ precision := pow_le_pow_right₀ (by norm_num) (Nat.zero_le precision)
      have h2 : (1 : ℚ) ≤ 10 ^ (max digits 1) := by
        calc (1 : ℚ) = 10 ^ 0 := by norm_num
        _ ≤ 10 ^ (max digits 1) := pow_le_pow_right₀ (by norm_num) (Nat.zero_le _)
      have h3 : (1 : ℚ) / 10 ^ precision ≤ 1 := by
        rw [div_le_one (by positivity)]
        exact h1
      have h4 : (0 : ℚ) < 1 / 10 ^ precision := by positivity
      exact fmtFixed_length_le (by linarith) (by linarith) hd1
    · rw [if_neg hclamp]
      exact fmtFixed_length_le hv (not_le.mp hclamp) hd1
  · have harg : (10 : ℚ) ^ (max 2 1) - 1 / 10 ^ 3 = 99999 / 1000 := by norm_num
    simp only [format_pretty_float]
    rw [if_pos (by norm_num : (10 : ℚ) ^ (max 2 1) ≤ 10 ^ 9),
      if_neg (by norm_num : ¬ (10 : ℚ) ^ (max 2 1) ≤ 99999 / 1000), harg]

/-- C5 (witness): the bound and the clamp equality at the concrete
instance from the claim. -/
theorem c5_format_float_bounded_witness :
    (format_pretty_float 2 3 ((10 : ℚ) ^ 9)).length ≤ max 2 1 + 1 + (if 0 < 3 then 3 + 1 else 0)
    ∧ format_pretty_float 2 3 ((10 : ℚ) ^ 9) = format_pretty_float 2 3 (99999 / 1000) := by
  exact c5_format_float_bounded 2 3 ((10 : ℚ) ^ 9) (by positivity)
